import Mathlib

/-!
Verification development for the libadic p-adic library.

The embedding translates the C++ headers under `src/include/libadic/`
(`zp.h`, `padic_log.h`, `characters.h`, `l_functions.h`) into executable
Lean definitions.  The external collaborators that are not part of the
given sources (`gmp_wrapper.h` / BigInt, `qp.h` / Qp, `modular_arith.h`,
`cyclotomic.h`) are modelled from the specification, as flagged in the
doc comment of each such definition.

Conventions:
* C++ `BigInt` and `long` are both modelled as `ℤ` (arbitrary precision;
  no claim exercises 64-bit overflow).
* On `ℤ`, Lean's `%` and `/` are `Int.emod`/`Int.ediv` (canonical
  nonnegative remainder for positive modulus); C++ `%` and `/` truncate
  toward zero and are modelled by `Int.tmod`/`Int.tdiv` where the sign can
  matter.  GMP's `mpz_powm` and `mpz_invert` return canonical nonnegative
  representatives.
* Unbounded C++ loops are given explicit fuel so that every definition is
  structurally recursive and kernel-computable; call sites supply fuel
  large enough that it is never exhausted on the inputs of interest.
-/

namespace Libadic

/-- Fueled extended Euclid on naturals: `egcd fuel a b = (g, x, y)` with
`a*x + b*y = g = gcd a b` whenever `b ≤ fuel`. -/
def egcd : ℕ → ℕ → ℕ → ℕ × ℤ × ℤ
  | _, a, 0 => (a, 1, 0)
  | 0, _, _ + 1 => (0, 0, 0)
  | fuel + 1, a, b + 1 =>
    let r := egcd fuel (b + 1) (a % (b + 1))
    (r.1, r.2.2, r.2.1 - ((a / (b + 1) : ℕ) : ℤ) * r.2.2)

/-- Greatest common divisor computed through `egcd` (kernel-computable). -/
def gcdN (a b : ℕ) : ℕ := (egcd b a b).1

/-- Modular inverse helper: canonical representative of the inverse of `a`
modulo `m`, valid when `Int.gcd a m = 1` and `0 < m`. -/
def invMod (a m : ℤ) : ℤ :=
  ((egcd m.toNat (a % m).toNat m.toNat).2.1) % m

/-- `BigInt::mod_inverse` (external bignum layer, modelled from the spec:
"modular inverse (fails if not coprime)"; GMP returns the representative in
`[0, m)`). -/
def mod_inverse (a m : ℤ) : Option ℤ :=
  if gcdN a.natAbs m.natAbs = 1 then some (invMod a m) else none

/-- Fueled count of the factors of `p` in a nonzero integer
(`p_adic_valuation` from the external `modular_arith.h`; modelled from the
spec: "p-adic valuation of an integer", counting divisions by `p`). -/
def countP (p : ℕ) : ℕ → ℤ → ℕ
  | 0, _ => 0
  | fuel + 1, v =>
    if 2 ≤ p ∧ v ≠ 0 ∧ (p : ℤ) ∣ v then countP p fuel (v / p) + 1 else 0

/-- p-adic valuation of an integer, with enough fuel for any input. -/
def intVal (p : ℕ) (v : ℤ) : ℕ := countP p v.natAbs v

/-- C++ `pow_mod` on `long` from `characters.h` (truncated `%`, so the
result keeps the sign of the running product). -/
def powModCAux (m : ℤ) : ℕ → ℤ → ℤ → ℕ → ℤ
  | 0, result, _, _ => result
  | fuel + 1, result, base, exp =>
    if exp = 0 then result
    else
      powModCAux m fuel
        (if exp % 2 = 1 then (result * base).tmod m else result)
        ((base * base).tmod m) (exp / 2)

def powModC (base : ℤ) (exp : ℕ) (m : ℤ) : ℤ :=
  powModCAux m (exp + 1) 1 (base.tmod m) exp

/-- `BigInt::pow_mod` (external bignum layer, modelled from the spec; GMP's
`mpz_powm` returns the canonical nonnegative representative). -/
def powModB (base : ℤ) (exp : ℕ) (m : ℤ) : ℤ := (base ^ exp) % m

/-! ## Zp — tracked-precision p-adic integers (`zp.h`) -/

/-- A p-adic integer as stored by `class Zp`: prime, absolute precision and
the integer representative (canonically in `[0, p^precision)`). -/
structure Zp where
  prime : ℕ
  precision : ℕ
  value : ℤ
deriving DecidableEq

/-- The `Zp(p, N, value)` constructor: `normalize` reduces the value into
`[0, p^N)` (C++ `%` plus a conditional `+= p_power`, i.e. `Int.emod`). -/
def Zp.mk' (p N : ℕ) (v : ℤ) : Zp := ⟨p, N, v % ((p : ℤ) ^ N)⟩

/-- `Zp::operator+` (requires equal primes; C++ throws otherwise). -/
def Zp.add (x y : Zp) : Zp :=
  let m := min x.precision y.precision
  ⟨x.prime, m, (x.value + y.value) % ((x.prime : ℤ) ^ m)⟩

/-- `Zp::operator-` (binary; the truncated `%` plus conditional fix-up is
exactly `Int.emod`). -/
def Zp.sub (x y : Zp) : Zp :=
  let m := min x.precision y.precision
  ⟨x.prime, m, (x.value - y.value) % ((x.prime : ℤ) ^ m)⟩

/-- `Zp::operator*`. -/
def Zp.mul (x y : Zp) : Zp :=
  let m := min x.precision y.precision
  ⟨x.prime, m, (x.value * y.value) % ((x.prime : ℤ) ^ m)⟩

/-- `Zp::operator-` (unary negation). -/
def Zp.neg (x : Zp) : Zp :=
  ⟨x.prime, x.precision,
    (((x.prime : ℤ) ^ x.precision - x.value)) % ((x.prime : ℤ) ^ x.precision)⟩

/-- `Zp::is_unit`. -/
def Zp.is_unit (x : Zp) : Bool := x.value % (x.prime : ℤ) ≠ 0

/-- `teichmuller_character` (external `modular_arith.h`, modelled from the
spec: iterated lifting `ω ← ω^p` to the fixed point, at full precision `N`;
`N` iterations reach the fixed point modulo `p^N`). -/
def teichmullerZ (v : ℤ) (p N : ℕ) : ℤ :=
  (fun x => (x ^ p) % ((p : ℤ) ^ N))^[N] (v % ((p : ℤ) ^ N))

/-- `Zp::teichmuller`. -/
def Zp.teichmuller (x : Zp) : Zp :=
  ⟨x.prime, x.precision, teichmullerZ x.value x.prime x.precision⟩

/-- Strip all factors of `p` from `den` (the `while (den.is_divisible_by)`
loop of `Zp::from_rational`), fueled. -/
def stripFactorZ (p : ℕ) : ℕ → ℤ → ℤ
  | 0, den => den
  | fuel + 1, den =>
    if (p : ℤ) ∣ den then stripFactorZ p fuel (den.tdiv p) else den

/-- `Zp::from_rational`: `none` models the C++ domain error on a zero
denominator and the `mod_inverse` failure on a non-coprime denominator. -/
def Zp.from_rational (num den : ℤ) (p N : ℕ) : Option Zp :=
  if den = 0 then none
  else
    let den' := stripFactorZ p den.natAbs den
    match mod_inverse den' ((p : ℤ) ^ N) with
    | none => none
    | some inv => some (Zp.mk' p N (num * inv))

/-- Extract `(q, s)` with `p - 1 = q * 2^s`, `q` odd (the `while (q % 2 == 0)`
loop of `Zp::sqrt`), fueled. -/
def stripTwoAux : ℕ → ℤ → ℤ → ℤ × ℤ
  | 0, q, s => (q, s)
  | fuel + 1, q, s =>
    if q % 2 = 0 then stripTwoAux fuel (q / 2) (s + 1) else (q, s)

/-- The inner order-finding loop of Tonelli–Shanks
(`i = 1; t2 = t^2 mod p; while (t2 != 1) { t2 = t2^2; i++ }`), fueled. -/
def tsInner (p : ℤ) : ℕ → ℤ → ℤ → ℤ
  | 0, _, i => i
  | fuel + 1, t2, i =>
    if t2 = 1 then i else tsInner p fuel ((t2 * t2) % p) (i + 1)

/-- The main Tonelli–Shanks loop (`while (!t.is_one())`) of `Zp::sqrt`,
fueled; state is `(m, c, t, r)`. -/
def tsLoop (p : ℤ) : ℕ → ℤ → ℤ → ℤ → ℤ → ℤ
  | 0, _, _, _, r => r
  | fuel + 1, m, c, t, r =>
    if t = 1 then r
    else
      let i := tsInner p (m.toNat + 1) ((t * t) % p) 1
      let b := (fun x => (x * x) % p)^[(m - i - 1).toNat] c
      let c' := (b * b) % p
      tsLoop p fuel i c' ((t * c') % p) ((r * b) % p)

/-- The Hensel-lift loop of `Zp::sqrt` (`for k = 1..N-1`); the only failure
is `mod_inverse(2*root, p)` on a non-coprime argument. -/
def sqrtHensel (p : ℕ) (value : ℤ) (N : ℕ) (root0 : ℤ) : Option ℤ :=
  (List.range (N - 1)).foldlM
    (fun root k0 =>
      let k := k0 + 1
      let pk := (p : ℤ) ^ k
      let pk1 := pk * p
      let f := (root * root - value).tmod pk1
      if f = 0 then some root
      else
        match mod_inverse (2 * root) (p : ℤ) with
        | none => none
        | some inv =>
          let correction := (f.tdiv pk) * inv
          let root' := (root - correction * pk).tmod pk1
          some (if root' < 0 then root' + pk1 else root'))
    root0

/-- `Zp::sqrt`: Legendre test and Tonelli–Shanks modulo `p` (for odd `p`;
root `1` and a `value ≡ 1 (mod 8)` test for `p = 2`), followed by the Hensel
lift to precision `N`.  `none` models every thrown error. -/
def Zp.sqrt (x : Zp) : Option Zp :=
  if ¬ x.is_unit then none
  else
    let p := (x.prime : ℤ)
    if x.prime = 2 then
      if x.value % 8 ≠ 1 then none
      else (sqrtHensel 2 x.value x.precision 1).map (fun r => Zp.mk' 2 x.precision r)
    else
      let legendre := powModB x.value ((x.prime - 1) / 2) p
      if legendre ≠ 1 then none
      else
        let qs := stripTwoAux x.prime (p - 1) 0
        let q := qs.1
        let s := qs.2
        let z := ((List.range' 2 x.prime).find?
          (fun z => powModB (z : ℤ) ((x.prime - 1) / 2) p = p - 1)).getD 0
        let c := powModB (z : ℤ) q.toNat p
        let t := powModB x.value q.toNat p
        let r := powModB x.value ((q + 1) / 2).toNat p
        let root := tsLoop p (x.prime + 1) s c t r
        (sqrtHensel x.prime x.value x.precision root).map
          (fun r' => Zp.mk' x.prime x.precision r')

/-! ## Qp — the fraction field (external `qp.h`)

Modelled from the spec: `qp.h` is not among the given sources.  Per §3 and
§4.2 of the specification a `Qp` is a pair of a signed valuation and a unit
in `Z_p` with its own (unit) precision; the absolute precision is
`valuation + precision`.  The zero element has valuation `+∞`; it is stored
with `u = 0, v = 0` and `precision` recording the absolute precision, and
the `long`-returning `valuation()` accessor reports `precision` for it (the
`Zp` convention of §4.1).  Cancellation in addition and unit-part extraction
reduce the unit precision, per the "hard invariant" of §4.1; results known
to no significant digit degenerate to zero (§7). -/

/-- A p-adic number: valuation `v` plus canonical unit `u ∈ [0, p^precision)`
coprime to `p`; `u = 0` encodes the zero element. -/
structure Qp where
  prime : ℕ
  precision : ℕ
  v : ℤ
  u : ℤ
deriving DecidableEq

/-- Modelled from the spec: absolute precision of a `Qp` (§4.2: `v + N`). -/
def Qp.absPrec (x : Qp) : ℤ :=
  if x.u = 0 then (x.precision : ℤ) else x.v + x.precision

/-- Modelled from the spec: canonicalize the value `D·p^v`, known to
absolute precision `A`, extracting the valuation of `D`. -/
def Qp.norm (p : ℕ) (A v D : ℤ) : Qp :=
  if D = 0 then ⟨p, A.toNat, 0, 0⟩
  else
    let t := (intVal p D : ℤ)
    if A ≤ v + t then ⟨p, A.toNat, 0, 0⟩
    else ⟨p, (A - v - t).toNat, v + t,
      (D / (p : ℤ) ^ t.toNat) % ((p : ℤ) ^ (A - v - t).toNat)⟩

/-- Modelled from the spec: the `Qp(p, N, integer)` constructor — an exact
integer input, so the unit keeps precision `N` (§4.2 `from_rational` with
denominator 1: extract the valuation, reduce the unit modulo `p^N`). -/
def Qp.ofInt (p N : ℕ) (x : ℤ) : Qp :=
  if x = 0 then ⟨p, N, 0, 0⟩
  else
    let t := intVal p x
    ⟨p, N, t, (x / (p : ℤ) ^ t) % ((p : ℤ) ^ N)⟩

/-- Modelled from the spec: `Qp::operator+` — align valuations, add, and
renormalize at the minimum absolute precision. -/
def Qp.add (x y : Qp) : Qp :=
  let vp := min x.v y.v
  let D := x.u * (x.prime : ℤ) ^ (x.v - vp).toNat +
    y.u * (x.prime : ℤ) ^ (y.v - vp).toNat
  Qp.norm x.prime (min x.absPrec y.absPrec) vp D

/-- Modelled from the spec: `Qp::operator-` (unary). -/
def Qp.neg (x : Qp) : Qp :=
  if x.u = 0 then x
  else ⟨x.prime, x.precision, x.v, (-x.u) % ((x.prime : ℤ) ^ x.precision)⟩

/-- Modelled from the spec: `Qp::operator-` (binary). -/
def Qp.sub (x y : Qp) : Qp := x.add y.neg

/-- Modelled from the spec: `Qp::operator*` — valuations add, units
multiply at the minimum unit precision. -/
def Qp.mul (x y : Qp) : Qp :=
  Qp.norm x.prime (min (x.absPrec + y.v) (y.absPrec + x.v)) (x.v + y.v)
    (x.u * y.u)

/-- Modelled from the spec: `Qp::operator/` — defined for a nonzero
divisor (C++ throws otherwise; the model then returns junk). -/
def Qp.div (x y : Qp) : Qp :=
  let mN := min x.precision y.precision
  Qp.norm x.prime (x.v - y.v + mN) (x.v - y.v)
    (x.u * invMod y.u ((x.prime : ℤ) ^ mN))

/-- Modelled from the spec: `Qp::with_precision` — truncate (or formally
lift) to absolute precision `N'` (glossary: "Precision N. Absolute p-adic
precision"); a value with no significant digit left degenerates to zero. -/
def Qp.with_precision (x : Qp) (N' : ℕ) : Qp :=
  if x.u = 0 then ⟨x.prime, N', 0, 0⟩
  else
    let un := (N' : ℤ) - x.v
    if un ≤ 0 then ⟨x.prime, N', 0, 0⟩
    else ⟨x.prime, un.toNat, x.v, x.u % ((x.prime : ℤ) ^ un.toNat)⟩

/-- Modelled from the spec: conversion `Zp → Qp` (§3) — the `Zp` carries
absolute precision `N`, so extracting `k` factors of `p` leaves unit
precision `N - k` (§4.1 unit-part invariant). -/
def Qp.ofZp (z : Zp) : Qp := Qp.norm z.prime z.precision 0 z.value

/-- Modelled from the spec: `Qp::from_rational` (§4.2) — extract the
valuation of `a/b`, reduce the coprime-to-p part modulo `p^N`, attach the
valuation. -/
def Qp.from_rational (a b : ℤ) (p N : ℕ) : Qp :=
  if a = 0 then ⟨p, N, 0, 0⟩
  else
    let va := intVal p a
    let vb := intVal p b
    ⟨p, N, (va : ℤ) - vb,
      ((a / (p : ℤ) ^ va) * invMod (b / (p : ℤ) ^ vb) ((p : ℤ) ^ N)) %
        ((p : ℤ) ^ N)⟩

/-- Modelled from the spec: the `long`-returning `Qp::valuation()`; the zero
element's `+∞` is represented as the stored precision (§4.1). -/
def Qp.valuationL (x : Qp) : ℤ :=
  if x.u = 0 then (x.precision : ℤ) else x.v

/-! ## PadicLog (`padic_log.h`) -/

/-- The working-precision loop of `PadicLog::log`
(`for (n = p; n <= N*2; n *= p) count++`), fueled. -/
def countPowAux (p bound : ℕ) : ℕ → ℕ → ℕ
  | 0, _ => 0
  | fuel + 1, n => if n ≤ bound then countPowAux p bound fuel (n * p) + 1 else 0

def countPowLE (p bound : ℕ) : ℕ := countPowAux p bound (bound + 1) p

/-- `PadicLog::check_convergence_condition`.  The valuation comparison on a
zero difference follows the spec's `+∞` convention for the zero element, so
a zero difference passes the threshold. -/
def PadicLog.check_convergence (x : Qp) : Bool :=
  if x.u = 0 then false
  else
    let diff := x.sub (Qp.ofInt x.prime x.precision 1)
    let thr : ℤ := if x.prime = 2 then 2 else 1
    if diff.u = 0 then true else decide (thr ≤ diff.v)

/-- `PadicLog::compute_required_terms` (the `p` parameter is unused in the
source as well). -/
def PadicLog.compute_required_terms (precision : ℕ) (u_val : ℤ) : ℤ :=
  if u_val ≤ 0 then (precision : ℤ) * 2
  else min ((precision : ℤ) / u_val + 10) ((precision : ℤ) * 3)

/-- The Mercator-series loop of `PadicLog::log` (`for n = 2..terms` with the
two early `break`s), fueled. -/
def PadicLog.logLoop (u : Qp) (wp : ℕ) (terms : ℤ) :
    ℕ → ℕ → Qp → Qp → Qp
  | 0, _, result, _ => result
  | fuel + 1, n, result, u_power =>
    if terms < (n : ℤ) then result
    else
      let divisor := Qp.ofInt u.prime wp (n : ℤ)
      let term := u_power.div divisor
      if term.u = 0 ∨ (wp : ℤ) ≤ term.v then result
      else
        let result' := if n % 2 = 1 then result.add term else result.sub term
        let u_power' := u_power.mul u
        if u_power'.u = 0 ∨ (wp : ℤ) ≤ u_power'.v then result'
        else PadicLog.logLoop u wp terms fuel (n + 1) result' u_power'

/-- `PadicLog::log`: `none` models each thrown domain error. -/
def PadicLog.log (x : Qp) : Option Qp :=
  if x.u = 0 then none
  else if x.valuationL ≠ 0 then none
  else
    let p := x.prime
    let N := x.precision
    let wp := N + countPowLE p (N * 2) + 5
    let one := Qp.ofInt p wp 1
    let u := (x.with_precision wp).sub one
    if ¬ PadicLog.check_convergence x then none
    else
      let terms := PadicLog.compute_required_terms wp u.valuationL
      if terms < 1 then some (Qp.ofInt p N 0)
      else
        some ((PadicLog.logLoop u wp terms (terms.toNat + 1) 2 u
          (u.mul u)).with_precision N)


/-! ## DirichletCharacter (`characters.h`) -/

/-- The `while (n % p == 0)` stripping loop of `compute_generators`,
fueled; returns (multiplicity, remaining cofactor). -/
def spN (p : ℕ) : ℕ → ℕ → ℕ × ℕ
  | 0, n => (0, n)
  | fuel + 1, n =>
    if 2 ≤ p ∧ 0 < n ∧ n % p = 0 then
      let r := spN p fuel (n / p)
      (r.1 + 1, r.2)
    else (0, n)

def stripPow (p n : ℕ) : ℕ × ℕ := spN p n n

/-- The odd trial-division loop of `compute_generators`
(`for (p = 3; p*p <= n; p += 2)`), fueled; returns the list of found
(prime, multiplicity) pairs and the remaining cofactor. -/
def otAux : ℕ → ℕ → ℕ → List (ℕ × ℕ) × ℕ
  | 0, _, n => ([], n)
  | fuel + 1, d, n =>
    if d * d ≤ n then
      let r := stripPow d n
      let rest := otAux fuel (d + 2) r.2
      (if 0 < r.1 then (d, r.1) :: rest.1 else rest.1, rest.2)
    else ([], n)

/-- The full factorization of `compute_generators`: powers of 2, odd trial
division, and the prime left-over. -/
def codeFactor (n : ℕ) : List (ℕ × ℕ) :=
  let r2 := stripPow 2 n
  let ro := otAux r2.2 3 r2.2
  (if 0 < r2.1 then [(2, r2.1)] else []) ++ ro.1 ++
    (if 1 < ro.2 then [(ro.2, 1)] else [])

/-- The weak primitive-root test of `compute_generators`
(`for (d = 2; d*d <= p-1; ++d)`). -/
def isPrimitiveWeak (g p : ℕ) : Bool :=
  (List.range' 2 p).all fun d =>
    if d * d ≤ p - 1 ∧ (p - 1) % d = 0 then
      decide (powModC (g : ℤ) d (p : ℤ) ≠ 1 ∧
        powModC (g : ℤ) ((p - 1) / d) (p : ℤ) ≠ 1)
    else true

/-- The primitive-root search of `compute_generators` (`g = 2; while (true)
g++` — bounded here by `p + 2`, enough for every prime), with the
`g^(p-1) ≡ 1 (mod p^2)` adjustment for higher prime powers. -/
def findPrimRoot (p k : ℕ) : ℕ :=
  let g := ((List.range' 2 (p + 2)).find? (fun g => isPrimitiveWeak g p)).getD 0
  if 1 < k ∧ powModC (g : ℤ) (p - 1) ((p : ℤ) * p) = 1 then g + p else g

/-- Generators and orders contributed by one prime-power factor
(the branch ladder of `compute_generators`). -/
def factorPairs : ℕ × ℕ → List (ℤ × ℕ)
  | (p, k) =>
    let pk := p ^ k
    if p = 2 ∧ 3 ≤ k then [(-1, 2), (3, pk / 4)]
    else if p = 2 ∧ k = 2 then [(-1, 2)]
    else if p = 2 ∧ k = 1 then []
    else [((findPrimRoot p k : ℤ), pk - pk / p)]

/-- `compute_generators`: the parallel `generators`/`generator_orders`
vectors, kept as one list of pairs. -/
def computeGenPairs (modulus : ℕ) : List (ℤ × ℕ) :=
  if modulus = 1 then [] else (codeFactor modulus).flatMap factorPairs

/-- A Dirichlet character as stored by `class DirichletCharacter`. -/
structure DirichletCharacter where
  modulus : ℕ
  prime : ℕ
  gens : List (ℤ × ℕ)
  character_values : List ℕ
  conductor : ℕ
deriving DecidableEq

/-- The naive discrete-log search of `express_in_generators`
(`for (e = 0; e < order; ++e)`), defaulting to exponent 0. -/
def dlogSearch (g : ℤ) (order modulus : ℕ) (target : ℤ) : ℕ :=
  ((List.range order).find?
    (fun e => decide (powModC g e (modulus : ℤ) = target))).getD 0

/-- `DirichletCharacter::express_in_generators`. -/
def DirichletCharacter.express_in_generators (χ : DirichletCharacter)
    (a : ℤ) : List ℕ :=
  if Int.gcd a χ.modulus ≠ 1 then List.replicate χ.gens.length 0
  else
    let target := ((a.tmod χ.modulus) + χ.modulus).tmod χ.modulus
    χ.gens.map (fun gi => dlogSearch gi.1 gi.2 χ.modulus target)

/-- `DirichletCharacter::evaluate_at` — note that the running value is
`Π character_values[i] ^ exps[i]` reduced modulo the running lcm of the
generator orders, exactly as the source computes it. -/
def DirichletCharacter.evaluate_at (χ : DirichletCharacter) (n : ℤ) : ℤ :=
  if Int.gcd n χ.modulus ≠ 1 then 0
  else
    let n' := ((n.tmod χ.modulus) + χ.modulus).tmod χ.modulus
    let exps := χ.express_in_generators n'
    ((List.range χ.gens.length).foldl
      (fun (st : ℤ × ℕ) i =>
        let cv := χ.character_values.getD i 0
        if cv ≠ 0 then
          let order := Nat.lcm st.2 (χ.gens.getD i (0, 1)).2
          ((st.1 * powModC (cv : ℤ) (exps.getD i 0) (order : ℤ)).tmod order, order)
        else st)
      (1, 1)).1

/-- The spec's formula for the same evaluation (§4.4 of the spec, quoted):
"If gcd(a, n) > 1, return 0.  Otherwise express a canonically in the
generator decomposition as (x_1, …, x_r) …; then return Σ e_i x_i mod L,
where L = lcm of the m_i for which e_i ≠ 0".  The decomposition is taken
from `express_in_generators` (for a modulus with a single cyclic factor it
is the plain discrete log of the spec). -/
def specEvaluateAt (χ : DirichletCharacter) (n : ℤ) : ℤ :=
  if Int.gcd n χ.modulus ≠ 1 then 0
  else
    let n' := ((n.tmod χ.modulus) + χ.modulus).tmod χ.modulus
    let exps := χ.express_in_generators n'
    let L := (List.range χ.gens.length).foldl
      (fun L i =>
        if χ.character_values.getD i 0 ≠ 0 then
          Nat.lcm L (χ.gens.getD i (0, 1)).2
        else L) 1
    ((List.range χ.gens.length).foldl
      (fun s i => s + (χ.character_values.getD i 0 : ℤ) * (exps.getD i 0 : ℤ))
      0) % (L : ℤ)

/-- `DirichletCharacter::is_principal`. -/
def DirichletCharacter.is_principal (χ : DirichletCharacter) : Bool :=
  χ.character_values.all (fun val => decide (val = 1 ∨ val = 0))

/-- `DirichletCharacter::get_order`. -/
def DirichletCharacter.get_order (χ : DirichletCharacter) : ℕ :=
  if χ.is_principal then 1
  else
    (List.range χ.character_values.length).foldl
      (fun order i =>
        let cv := χ.character_values.getD i 0
        if cv ≠ 0 then
          let mi := (χ.gens.getD i (0, 1)).2
          match (List.range' 1 mi).find?
              (fun k => decide (powModC (cv : ℤ) k (mi : ℤ) = 1)) with
          | some k => Nat.lcm order k
          | none => order
        else order)
      1

/-- One inner pass of `compute_conductor`: `χ` factors through `d`. -/
def conductorCheck (χ : DirichletCharacter) (d : ℕ) : Bool :=
  (List.range' 1 χ.modulus).all fun a =>
    if Int.gcd (a : ℤ) χ.modulus ≠ 1 then true
    else if Int.gcd (a : ℤ) d ≠ 1 then true
    else decide (χ.evaluate_at (a : ℤ) = χ.evaluate_at ((a : ℤ).tmod d))

/-- `DirichletCharacter::compute_conductor` (brute force over the proper
divisors `d < modulus`, first success wins, default `modulus`). -/
def compute_conductor (χ : DirichletCharacter) : ℕ :=
  match ((List.range' 1 (χ.modulus - 1)).filter
      (fun d => decide (χ.modulus % d = 0))).find? (fun d => conductorCheck χ d) with
  | some d => d
  | none => χ.modulus

/-- The two-argument constructor (trivial character; the conductor is set
to the modulus and not recomputed). -/
def DirichletCharacter.mkTrivial (mod p : ℕ) : DirichletCharacter :=
  let gens := computeGenPairs mod
  ⟨mod, p, gens, List.replicate gens.length 0, mod⟩

/-- The three-argument constructor (values on generators, conductor
computed eagerly).  The C++ length check can only throw; every call site in
this development passes a list of the right length. -/
def DirichletCharacter.make (mod p : ℕ) (vals : List ℕ) : DirichletCharacter :=
  let gens := computeGenPairs mod
  ⟨mod, p, gens, vals,
    compute_conductor ⟨mod, p, gens, vals, mod⟩⟩

/-- `DirichletCharacter::evaluate` — Teichmüller lift of the exponent
value. -/
def DirichletCharacter.evaluate (χ : DirichletCharacter) (n : ℤ)
    (precision : ℕ) : Zp :=
  let chi_n := χ.evaluate_at n
  if chi_n = 0 then Zp.mk' χ.prime precision 0
  else (Zp.mk' χ.prime precision chi_n).teichmuller

/-- All exponent tuples `Π [0, m_i)`, in the recursion order of the
`generate` lambda of `enumerate_characters`. -/
def allTuples : List ℕ → List (List ℕ)
  | [] => [[]]
  | m :: ms => (List.range m).flatMap (fun val => (allTuples ms).map (fun t => val :: t))

/-- `DirichletCharacter::enumerate_characters`. -/
def enumerate_characters (modulus prime : ℕ) : List DirichletCharacter :=
  let base := DirichletCharacter.mkTrivial modulus prime
  if base.gens.length = 0 then [base]
  else (allTuples (base.gens.map Prod.snd)).map
    (fun vs => DirichletCharacter.make modulus prime vs)

/-! ## Cyclotomic (external `cyclotomic.h`)

Modelled from the spec: an element of a p-adic cyclotomic ring containing a
primitive `(p-1)`-th root of unity `zeta`, supporting `+`, `×`, zero and
construction from a `Q_p` scalar (§3).  Represented by the list of `Q_p`
coefficients on `1, ζ, …, ζ^(p-2)`, with exponents handled modulo
`p - 1`. -/

structure Cyclotomic where
  prime : ℕ
  precision : ℕ
  coeffs : List Qp
deriving DecidableEq

/-- Modelled from the spec: the zero element `Cyclotomic(p, N)`. -/
def Cyclotomic.zero (p N : ℕ) : Cyclotomic :=
  ⟨p, N, List.replicate (p - 1) ⟨p, N, 0, 0⟩⟩

/-- Modelled from the spec: construction from a `Q_p` scalar. -/
def Cyclotomic.ofQp (p N : ℕ) (q : Qp) : Cyclotomic :=
  ⟨p, N, (List.range (p - 1)).map (fun i => if i = 0 then q else ⟨p, N, 0, 0⟩)⟩

/-- Modelled from the spec: `Cyclotomic::zeta(p, N)`. -/
def Cyclotomic.zeta (p N : ℕ) : Cyclotomic :=
  ⟨p, N, (List.range (p - 1)).map
    (fun i => if i = 1 then Qp.ofInt p N 1 else ⟨p, N, 0, 0⟩)⟩

/-- Modelled from the spec: ring multiplication, a cyclic convolution of
the coefficient lists (`ζ^(p-1) = 1`). -/
def Cyclotomic.mul (x y : Cyclotomic) : Cyclotomic :=
  let p := x.prime
  let N := min x.precision y.precision
  let m := p - 1
  let qz : Qp := ⟨p, N, 0, 0⟩
  ⟨p, N, (List.range m).map (fun k =>
    (List.range m).foldl
      (fun acc i =>
        acc.add ((x.coeffs.getD i qz).mul (y.coeffs.getD ((k + m - i % m) % m) qz)))
      qz)⟩

/-- Association-list lookup (`std::map::find`). -/
def assocFind {κ α : Type} [DecidableEq κ] : List (κ × α) → κ → Option α
  | [], _ => none
  | (k, v) :: t, key => if k = key then some v else assocFind t key

/-- `DirichletCharacter::evaluate_cyclotomic`, with the per-character
`value_cache` passed as explicit state.  Note: the cache is consulted and
keyed by `n` alone, and nothing is cached when `χ(n) = 0`. -/
def DirichletCharacter.evaluate_cyclotomic (χ : DirichletCharacter) (n : ℤ)
    (precision : ℕ) (cache : List (ℤ × Cyclotomic)) :
    Cyclotomic × List (ℤ × Cyclotomic) :=
  match assocFind cache n with
  | some v => (v, cache)
  | none =>
    let chi_n := χ.evaluate_at n
    if chi_n = 0 then (Cyclotomic.zero χ.prime precision, cache)
    else
      let zeta := Cyclotomic.zeta χ.prime precision
      let exponent := (chi_n * ((χ.prime : ℤ) - 1)) / (χ.get_order : ℤ)
      let result := (fun st => st.mul zeta)^[exponent.toNat]
        (Cyclotomic.ofQp χ.prime precision (Qp.ofInt χ.prime precision 1))
      (result, (n, result) :: cache)

/-! ## LFunctions (`l_functions.h`) -/

/-- The memo-cache key `LFunctions::LKey`; `char_id` is
`chi.evaluate_at(2)` at both call sites. -/
structure LKey where
  s : ℤ
  conductor : ℕ
  char_id : ℤ
  p : ℕ
  precision : ℕ
deriving DecidableEq

/-- `LFunctions::compute_B1_chi`. -/
def compute_B1_chi (χ : DirichletCharacter) (precision : ℕ) : Qp :=
  let p := χ.prime
  let conductor := χ.conductor
  if χ.is_principal then Qp.from_rational (-1) 2 p precision
  else
    let sum := (List.range' 1 conductor).foldl
      (fun (sum : Qp) (a : ℕ) =>
        if Int.gcd (a : ℤ) conductor ≠ 1 then sum
        else sum.add ((Qp.ofZp (χ.evaluate (a : ℤ) precision)).mul
          (Qp.ofInt p precision (a : ℤ))))
      (⟨p, precision, 0, 0⟩ : Qp)
    sum.div (Qp.ofInt p precision (conductor : ℤ))

/-- `LFunctions::compute_euler_factor` — note the `BigInt(p).pow(s - 1)`
exponent: at the `s = 0` branch of `kubota_leopoldt` this function is
called with `s = 1`, giving `p^0 = 1` (`BigInt::pow` takes a nonnegative
exponent; every call site passes `s ≥ 1`). -/
def compute_euler_factor (χ : DirichletCharacter) (s : ℤ) (precision : ℕ) : Qp :=
  let p := χ.prime
  let one := Qp.ofInt p precision 1
  if χ.conductor % p = 0 then one
  else
    let chi_p := χ.evaluate (p : ℤ) precision
    let p_power := Qp.ofInt p precision ((p : ℤ) ^ (s - 1).toNat)
    one.sub ((Qp.ofZp chi_p).mul p_power)

/-- The `s = 0` branch of `LFunctions::kubota_leopoldt`, including the
cache key, lookup and insert, with the static `l_cache` passed as explicit
state.  (The `s ≠ 0` branches depend on the absent external
`bernoulli.h`.) -/
def kubota_leopoldt0 (χ : DirichletCharacter) (precision : ℕ)
    (l_cache : List (LKey × Qp)) : Qp × List (LKey × Qp) :=
  let p := χ.prime
  let conductor := χ.conductor
  let key : LKey := ⟨0, conductor, χ.evaluate_at 2, p, precision⟩
  match assocFind l_cache key with
  | some v => (v, l_cache)
  | none =>
    let B1_chi := compute_B1_chi χ precision
    let euler_factor := compute_euler_factor χ 1 precision
    let result := (euler_factor.mul B1_chi).neg
    (result, (key, result) :: l_cache)

/-! ## Theorems -/

theorem stripFactorZ_eq (p f : ℕ) (b : ℤ) (hb : ¬ (p : ℤ) ∣ b) :
    stripFactorZ p f b = b := by
  cases f <;> simp [stripFactorZ, hb]

theorem countP_dvd_spec (p : ℕ) : ∀ (fuel : ℕ) (v : ℤ), 2 ≤ p → v ≠ 0 →
    v.natAbs ≤ fuel →
    ((p : ℤ) ^ (countP p fuel v) ∣ v) ∧ ¬ ((p : ℤ) ^ (countP p fuel v + 1) ∣ v) := by
  intro fuel
  induction fuel with
  | zero => intro v hp hv habs; omega
  | succ fuel ih =>
    intro v hp hv habs
    by_cases hd : (p : ℤ) ∣ v
    · have hcond : 2 ≤ p ∧ v ≠ 0 ∧ (p : ℤ) ∣ v := ⟨hp, hv, hd⟩
      have hp0 : (p : ℤ) ≠ 0 := by positivity
      have hvdiv : (p : ℤ) * (v / (p : ℤ)) = v := Int.mul_ediv_cancel' hd
      have hq0 : v / (p : ℤ) ≠ 0 := by
        intro h0; rw [h0, mul_zero] at hvdiv; exact hv hvdiv.symm
      have habs' : (v / (p : ℤ)).natAbs ≤ fuel := by
        have hna : v.natAbs = p * (v / (p : ℤ)).natAbs := by
          conv_lhs => rw [← hvdiv]
          rw [Int.natAbs_mul, Int.natAbs_ofNat]
        have hq1 : 1 ≤ (v / (p : ℤ)).natAbs :=
          Nat.one_le_iff_ne_zero.mpr (Int.natAbs_ne_zero.mpr hq0)
        nlinarith
      obtain ⟨ih1, ih2⟩ := ih (v / (p : ℤ)) hp hq0 habs'
      rw [countP, if_pos hcond]
      constructor
      · rw [pow_succ, mul_comm _ ((p : ℤ))]
        calc (p : ℤ) * (p : ℤ) ^ (countP p fuel (v / (p : ℤ))) ∣
            (p : ℤ) * (v / (p : ℤ)) := mul_dvd_mul_left _ ih1
          _ = v := hvdiv
      · intro hcon
        apply ih2
        obtain ⟨w, hw⟩ := hcon
        set c := countP p fuel (v / (p : ℤ)) with hc
        refine ⟨w, ?_⟩
        have h' : (p : ℤ) * (v / (p : ℤ)) = (p : ℤ) * ((p : ℤ) ^ (c + 1) * w) := by
          rw [hvdiv, hw]; ring
        exact mul_left_cancel₀ hp0 h'
    · rw [countP, if_neg (by tauto)]
      exact ⟨by simp, by simpa using hd⟩

theorem intVal_spec (p : ℕ) (v : ℤ) (hp : 2 ≤ p) (hv : v ≠ 0) :
    ((p : ℤ) ^ (intVal p v) ∣ v) ∧ ¬ ((p : ℤ) ^ (intVal p v + 1) ∣ v) :=
  countP_dvd_spec p v.natAbs v hp hv le_rfl

theorem intVal_unique (p : ℕ) (v : ℤ) (k : ℕ) (hp : 2 ≤ p) (hv : v ≠ 0)
    (h1 : (p : ℤ) ^ k ∣ v) (h2 : ¬ (p : ℤ) ^ (k + 1) ∣ v) : intVal p v = k := by
  obtain ⟨g1, g2⟩ := intVal_spec p v hp hv
  rcases lt_trichotomy (intVal p v) k with h | h | h
  · exact absurd (dvd_trans (pow_dvd_pow _ (by omega)) h1) g2
  · exact h
  · exact absurd (dvd_trans (pow_dvd_pow _ (by omega : k + 1 ≤ intVal p v)) g1) h2

theorem intVal_one (p : ℕ) (hp : 2 ≤ p) : intVal p 1 = 0 := by
  refine intVal_unique p 1 0 hp one_ne_zero (by simp) ?_
  intro hcon
  have hle := Int.le_of_dvd one_pos hcon
  simp only [zero_add, pow_one] at hle
  omega

theorem egcd_spec : ∀ (fuel a b : ℕ), b ≤ fuel →
    (egcd fuel a b).1 = Nat.gcd a b ∧
    (a : ℤ) * (egcd fuel a b).2.1 + (b : ℤ) * (egcd fuel a b).2.2 =
      ((egcd fuel a b).1 : ℤ) := by
  intro fuel
  induction fuel with
  | zero =>
    intro a b hb
    interval_cases b
    simp [egcd]
  | succ fuel ih =>
    intro a b hb
    match b with
    | 0 => simp [egcd]
    | b + 1 =>
      have hlt : a % (b + 1) < b + 1 := Nat.mod_lt _ (Nat.succ_pos b)
      have hle : a % (b + 1) ≤ fuel := by omega
      obtain ⟨h1, h2⟩ := ih (b + 1) (a % (b + 1)) hle
      have hgcd : Nat.gcd (b + 1) (a % (b + 1)) = Nat.gcd a (b + 1) := by
        rw [Nat.gcd_comm (b + 1) (a % (b + 1)), ← Nat.gcd_rec, Nat.gcd_comm]
      have hmod : ((a % (b + 1) : ℕ) : ℤ) =
          (a : ℤ) - ((b + 1 : ℕ) : ℤ) * ((a / (b + 1) : ℕ) : ℤ) := by
        have h' : ((a % (b + 1) : ℕ) : ℤ) + ((b + 1 : ℕ) : ℤ) * ((a / (b + 1) : ℕ) : ℤ)
            = (a : ℤ) := by exact_mod_cast Nat.mod_add_div a (b + 1)
        linarith
      have hunfold : egcd (fuel + 1) a (b + 1) =
          ((egcd fuel (b + 1) (a % (b + 1))).1,
            (egcd fuel (b + 1) (a % (b + 1))).2.2,
            (egcd fuel (b + 1) (a % (b + 1))).2.1 -
              ((a / (b + 1) : ℕ) : ℤ) * (egcd fuel (b + 1) (a % (b + 1))).2.2) := rfl
      rw [hunfold]
      constructor
      · rw [← hgcd, ← h1]
      · show (a : ℤ) * (egcd fuel (b + 1) (a % (b + 1))).2.2 +
            ((b + 1 : ℕ) : ℤ) * ((egcd fuel (b + 1) (a % (b + 1))).2.1 -
              ((a / (b + 1) : ℕ) : ℤ) * (egcd fuel (b + 1) (a % (b + 1))).2.2) = _
        have h2' : ((b + 1 : ℕ) : ℤ) * (egcd fuel (b + 1) (a % (b + 1))).2.1 +
            (((a : ℤ) - ((b + 1 : ℕ) : ℤ) * ((a / (b + 1) : ℕ) : ℤ))) *
              (egcd fuel (b + 1) (a % (b + 1))).2.2 =
            ((egcd fuel (b + 1) (a % (b + 1))).1 : ℤ) := by rw [← hmod]; exact h2
        linarith [h2']

theorem gcdN_eq_gcd (a b : ℕ) : gcdN a b = Nat.gcd a b :=
  (egcd_spec b a b le_rfl).1

theorem invMod_spec (a m : ℤ) (hm : 0 < m) (h : Int.gcd a m = 1) :
    (a * invMod a m) % m = 1 % m := by
  have ha' : 0 ≤ a % m := Int.emod_nonneg a (ne_of_gt hm)
  have hco : IsCoprime (a % m) m := by
    have h0 : IsCoprime a m := Int.gcd_eq_one_iff_coprime.mp h
    have hrw : a % m = a + m * (-(a / m)) := by
      rw [Int.emod_def]; ring
    rw [hrw]
    exact h0.add_mul_left_left _
  have hg : Nat.gcd (a % m).toNat m.toNat = 1 := by
    have hh := Int.gcd_eq_one_iff_coprime.mpr hco
    have e1 : (a % m).natAbs = (a % m).toNat := by omega
    have e2 : m.natAbs = m.toNat := by omega
    rw [Int.gcd] at hh
    rw [e1, e2] at hh
    exact hh
  obtain ⟨h1, h2⟩ := egcd_spec m.toNat (a % m).toNat m.toNat le_rfl
  rw [h1, hg] at h2
  have hc1 : (((a % m).toNat : ℕ) : ℤ) = a % m := Int.toNat_of_nonneg ha'
  have hc2 : ((m.toNat : ℕ) : ℤ) = m := Int.toNat_of_nonneg (le_of_lt hm)
  rw [hc1, hc2] at h2
  push_cast at h2
  set x := (egcd m.toNat (a % m).toNat m.toNat).2.1 with hx
  set y := (egcd m.toNat (a % m).toNat m.toNat).2.2 with hy
  have step1 : (a * invMod a m) % m = (a * x) % m := by
    unfold invMod
    rw [← hx]
    conv_lhs => rw [Int.mul_emod]
    conv_rhs => rw [Int.mul_emod]
    rw [Int.emod_emod_of_dvd x dvd_rfl]
  have step2 : (a * x) % m = ((a % m) * x) % m := by
    conv_lhs => rw [Int.mul_emod]
    conv_rhs => rw [Int.mul_emod]
    rw [Int.emod_emod_of_dvd a dvd_rfl]
  have step3 : ((a % m) * x) % m = (1 : ℤ) % m := by
    have hlin : (a % m) * x = 1 + m * (-y) := by linarith
    rw [hlin, Int.add_mul_emod_self_left]
  rw [step1, step2, step3]

/-! ## C4 theorems -/

theorem norm_zero_case (p : ℕ) (A v D : ℤ) (hD : D ≠ 0)
    (hA : A ≤ v + (intVal p D : ℤ)) : Qp.norm p A v D = ⟨p, A.toNat, 0, 0⟩ := by
  unfold Qp.norm
  rw [if_neg hD, if_pos hA]

theorem norm_pos_case (p : ℕ) (A v D : ℤ) (hD : D ≠ 0)
    (hA : ¬ (A ≤ v + (intVal p D : ℤ))) :
    Qp.norm p A v D = ⟨p, (A - v - (intVal p D : ℤ)).toNat, v + (intVal p D : ℤ),
      (D / (p : ℤ) ^ (intVal p D)) % ((p : ℤ) ^ (A - v - (intVal p D : ℤ)).toNat)⟩ := by
  unfold Qp.norm
  rw [if_neg hD, if_neg hA]
  simp

theorem intVal_pow_self (p N : ℕ) (hp2 : 2 ≤ p) : intVal p ((p : ℤ) ^ N) = N := by
  have hppos : (0 : ℤ) < (p : ℤ) := by exact_mod_cast Nat.lt_of_lt_of_le Nat.zero_lt_two hp2
  refine intVal_unique p _ N hp2 (by positivity) dvd_rfl ?_
  intro hcon
  have hle := Int.le_of_dvd (by positivity) hcon
  have hlt : (p : ℤ) ^ N < (p : ℤ) ^ (N + 1) := by
    have hp1 : (1 : ℤ) < (p : ℤ) := by exact_mod_cast hp2
    exact pow_lt_pow_right₀ hp1 (Nat.lt_succ_self N)
  omega

/-- Characterization of the convergence test on the canonical difference
`x - 1` for a valuation-zero unit `x = u + O(p^N)`. -/
theorem diff_val_iff (p N : ℕ) (u : ℤ) (thr : ℕ) (hp2 : 2 ≤ p) (_hN1 : 1 ≤ N)
    (hupos : 0 < u) (hult : u < (p : ℤ) ^ N) (_hthr1 : 1 ≤ thr)
    (hthrN : u ≠ 1 → thr ≤ N) :
    ((Qp.norm p N 0 (u + ((p : ℤ) ^ N - 1))).u = 0 ∨
      ((thr : ℤ) ≤ (Qp.norm p N 0 (u + ((p : ℤ) ^ N - 1))).v)) ↔
      ((p : ℤ) ^ thr ∣ (u - 1)) := by
  have hppos : (0 : ℤ) < (p : ℤ) := by exact_mod_cast Nat.lt_of_lt_of_le Nat.zero_lt_two hp2
  have hpNpos : (0 : ℤ) < (p : ℤ) ^ N := by positivity
  set D := u + ((p : ℤ) ^ N - 1) with hDdef
  have hD : D = (u - 1) + (p : ℤ) ^ N := by rw [hDdef]; ring
  have hDpos : 0 < D := by omega
  have hD0 : D ≠ 0 := ne_of_gt hDpos
  by_cases hu1 : u = 1
  · subst hu1
    have hDval : D = (p : ℤ) ^ N := by omega
    rw [hDval] at hD0 ⊢
    have ht : intVal p ((p : ℤ) ^ N) = N := intVal_pow_self p N hp2
    rw [norm_zero_case p N 0 _ hD0 (by rw [ht]; omega)]
    simp
  · -- u ≥ 2, so the difference is a genuine nonzero value
    have hu2 : 2 ≤ u := by omega
    have hum : 0 < u - 1 := by omega
    have humlt : u - 1 < (p : ℤ) ^ N := by omega
    have hthN : thr ≤ N := hthrN hu1
    obtain ⟨hv1, hv2⟩ := intVal_spec p D hp2 hD0
    set t := intVal p D with htdef
    have htN : t < N := by
      by_contra hcon
      push_neg at hcon
      have hdN : (p : ℤ) ^ N ∣ D := dvd_trans (pow_dvd_pow _ hcon) hv1
      have hdm : (p : ℤ) ^ N ∣ (u - 1) := by
        have : (u - 1) = D - (p : ℤ) ^ N := by omega
        rw [this]
        exact dvd_sub hdN dvd_rfl
      have := Int.le_of_dvd hum hdm
      omega
    rw [norm_pos_case p N 0 D hD0 (by omega)]
    have hpt_dvd_pN : ∀ k : ℕ, k ≤ N → (p : ℤ) ^ k ∣ (p : ℤ) ^ N :=
      fun k hk => pow_dvd_pow _ hk
    have hdvd_iff : ∀ k : ℕ, k ≤ N → (((p : ℤ) ^ k ∣ D) ↔ ((p : ℤ) ^ k ∣ (u - 1))) := by
      intro k hk
      rw [hD]
      constructor
      · intro hh
        have : (u - 1) = ((u - 1) + (p : ℤ) ^ N) - (p : ℤ) ^ N := by ring
        rw [this]
        exact dvd_sub hh (hpt_dvd_pN k hk)
      · intro hh
        exact dvd_add hh (hpt_dvd_pN k hk)
    have hunit : (D / (p : ℤ) ^ t) % ((p : ℤ) ^ ((N : ℤ) - 0 - (t : ℤ)).toNat) ≠ 0 := by
      intro hcon
      have hnt : ((N : ℤ) - 0 - (t : ℤ)).toNat = N - t := by omega
      rw [hnt] at hcon
      have hdd : (p : ℤ) ^ (N - t) ∣ (D / (p : ℤ) ^ t) :=
        Int.dvd_of_emod_eq_zero hcon
      have hDt : (p : ℤ) ^ t * (D / (p : ℤ) ^ t) = D := Int.mul_ediv_cancel' hv1
      have hdN : (p : ℤ) ^ N ∣ D := by
        obtain ⟨w, hw⟩ := hdd
        refine ⟨w, ?_⟩
        rw [← hDt, hw, ← mul_assoc, ← pow_add]
        congr 2
        omega
      have hdm : (p : ℤ) ^ N ∣ (u - 1) := (hdvd_iff N le_rfl).mp hdN
      have := Int.le_of_dvd hum hdm
      omega
    simp only [hunit, false_or]
    constructor
    · intro hle
      have : (thr : ℤ) ≤ (0 : ℤ) + (t : ℤ) := hle
      have hthrt : thr ≤ t := by omega
      exact (hdvd_iff thr hthN).mp (dvd_trans (pow_dvd_pow _ hthrt) hv1)
    · intro hdvd
      have hDdvd : (p : ℤ) ^ thr ∣ D := (hdvd_iff thr hthN).mpr hdvd
      have hthrt : thr ≤ t := by
        by_contra hcon
        push_neg at hcon
        exact hv2 (dvd_trans (pow_dvd_pow _ (by omega : t + 1 ≤ thr)) hDdvd)
      show (thr : ℤ) ≤ (0 : ℤ) + (t : ℤ)
      omega

/-- Reduce the Boolean convergence test to a disjunction. -/
theorem boolCheckEq (c : Prop) [Decidable c] (thrZ v' : ℤ) :
    ((if c then true else decide (thrZ ≤ v')) = true) ↔ (c ∨ thrZ ≤ v') := by
  by_cases h : c <;> simp [h]

/-- The convergence check of `PadicLog` on a canonical valuation-zero unit
holds exactly when `u ≡ 1` modulo `p` (modulo 4 when `p = 2`). -/
theorem check_convergence_iff (p N : ℕ) (u : ℤ) (hp2 : 2 ≤ p) (hN1 : 1 ≤ N)
    (hupos : 0 < u) (hult : u < (p : ℤ) ^ N) (hund : ¬ (p : ℤ) ∣ u) :
    PadicLog.check_convergence ⟨p, N, 0, u⟩ = true ↔
      ((if p = 2 then (4 : ℤ) else (p : ℤ)) ∣ (u - 1)) := by
  have hppos : (0 : ℤ) < (p : ℤ) := by exact_mod_cast Nat.lt_of_lt_of_le Nat.zero_lt_two hp2
  have hp1 : (1 : ℤ) < (p : ℤ) := by exact_mod_cast hp2
  have hpN1 : (1 : ℤ) < (p : ℤ) ^ N := one_lt_pow₀ hp1 (by omega)
  have hu0 : u ≠ 0 := ne_of_gt hupos
  have hone : Qp.ofInt p N 1 = ⟨p, N, 0, 1⟩ := by
    unfold Qp.ofInt
    rw [if_neg one_ne_zero, intVal_one p hp2]
    simp only [pow_zero, Int.ediv_one]
    rw [Int.emod_eq_of_lt (by omega) (by omega)]
    norm_num
  have hm1 : (-1 : ℤ) % (p : ℤ) ^ N = (p : ℤ) ^ N - 1 := by
    have h1 : ((p : ℤ) ^ N - 1) % (p : ℤ) ^ N = (p : ℤ) ^ N - 1 :=
      Int.emod_eq_of_lt (by omega) (by omega)
    have h2 := Int.add_mul_emod_self_left (-1 : ℤ) ((p : ℤ) ^ N) 1
    have h3 : (-1 + (p : ℤ) ^ N * 1 : ℤ) = (p : ℤ) ^ N - 1 := by ring
    rw [h3] at h2
    rw [← h2, h1]
  have hdiff : Qp.sub ⟨p, N, 0, u⟩ (Qp.ofInt p N 1) =
      Qp.norm p N 0 (u + ((p : ℤ) ^ N - 1)) := by
    rw [hone]
    unfold Qp.sub Qp.neg Qp.add Qp.absPrec
    simp only [one_ne_zero, if_false, if_neg hu0]
    rw [hm1]
    have hne : ((p : ℤ) ^ N - 1) ≠ 0 := by omega
    simp only [if_neg hne, if_neg hu0]
    norm_num
  unfold PadicLog.check_convergence
  rw [if_neg (by exact hu0)]
  simp only [hdiff]
  rw [boolCheckEq]
  by_cases hp2' : p = 2
  · subst hp2'
    have hiff := diff_val_iff 2 N u 2 (by norm_num) hN1 hupos hult (by norm_num)
      (fun hu1 => by
        have hne2 : u ≠ 2 := by
          intro h
          apply hund
          rw [h]
          norm_num
        have hu3 : 3 ≤ u := by omega
        by_contra hcon
        push_neg at hcon
        have hN : N = 1 := by omega
        rw [hN] at hult
        norm_num at hult
        omega)
    push_cast at hiff ⊢
    exact hiff
  · simp only [if_neg hp2']
    have hiff := diff_val_iff p N u 1 hp2 hN1 hupos hult le_rfl (fun _ => hN1)
    rw [pow_one] at hiff
    push_cast at hiff ⊢
    exact hiff

/-- Both series branches of `log` return a value. -/
theorem ifSomeNe {α : Type} (c : Prop) [inst : Decidable c] (a b : α) :
    (if c then some a else some b) ≠ none := by
  by_cases h : c <;> simp [h]

/-- C5: `PadicLog::log(x)` raises a domain error exactly when `x` is zero,
or `x` has nonzero valuation, or `x` is not congruent to `1` modulo `p`
(modulo 4 for `p = 2`); on every `x` satisfying all the conditions it
returns a value without error.  (`Qp` itself is modelled from the spec,
`qp.h` being absent; `x` ranges over canonical well-formed values.) -/
theorem c5_log_domain (x : Qp) (hp2 : 2 ≤ x.prime) (hN1 : 1 ≤ x.precision)
    (hcanon : x.u ≠ 0 → 0 < x.u ∧ x.u < (x.prime : ℤ) ^ x.precision ∧
      ¬ ((x.prime : ℤ) ∣ x.u)) :
    (PadicLog.log x = none) ↔
      (x.u = 0 ∨ x.v ≠ 0 ∨
        ¬ ((if x.prime = 2 then (4 : ℤ) else (x.prime : ℤ)) ∣ (x.u - 1))) := by
  obtain ⟨p, N, v, u⟩ := x
  by_cases hu0 : u = 0
  · subst hu0
    simp [PadicLog.log]
  · obtain ⟨hupos, hult, hund⟩ := hcanon hu0
    by_cases hv0 : v = 0
    · subst hv0
      have hcheck := check_convergence_iff p N u hp2 hN1 hupos hult hund
      by_cases hc : PadicLog.check_convergence ⟨p, N, 0, u⟩ = true
      · simp only [PadicLog.log, Qp.valuationL, if_neg hu0]
        rw [if_neg (by simp), if_neg (by simpa using hc)]
        simp only [hu0, false_or]
        constructor
        · intro hcon
          exact absurd hcon (ifSomeNe _ _ _)
        · intro hor
          rcases hor with h | h
          · exact absurd rfl h
          · exact absurd (hcheck.mp hc) h
      · simp only [PadicLog.log, Qp.valuationL, if_neg hu0]
        rw [if_neg (by simp), if_pos (by simpa using hc)]
        simp only [hu0, false_or]
        constructor
        · intro _
          exact Or.inr (fun hd => hc (hcheck.mpr hd))
        · intro _
          trivial
    · simp only [PadicLog.log, Qp.valuationL, if_neg hu0]
      rw [if_pos hv0]
      simp [hv0]

/-- C5 witness: `x = 8 = 1 + 7 ∈ Q_7` at precision 3 is in the domain. -/
theorem c5_witness :
    (2 ≤ (⟨7, 3, 0, 8⟩ : Qp).prime) ∧ (1 ≤ (⟨7, 3, 0, 8⟩ : Qp).precision) ∧
    ((PadicLog.log ⟨7, 3, 0, 8⟩ = none) ↔
      ((⟨7, 3, 0, 8⟩ : Qp).u = 0 ∨ (⟨7, 3, 0, 8⟩ : Qp).v ≠ 0 ∨
        ¬ ((if (⟨7, 3, 0, 8⟩ : Qp).prime = 2 then (4 : ℤ)
            else ((⟨7, 3, 0, 8⟩ : Qp).prime : ℤ)) ∣ ((⟨7, 3, 0, 8⟩ : Qp).u - 1)))) :=
  ⟨by norm_num, by norm_num,
    c5_log_domain ⟨7, 3, 0, 8⟩ (by norm_num) (by norm_num) (by decide)⟩

/-- C7: evaluation of `Zp::sqrt` at the failing input `x = 9 mod 2^4`.
`x` is a unit with `x ≡ 1 (mod 8)` and has the exact square root `3`
(`3^2 = 9`), so by the claim and the spec ("for p = 2, require
x ≡ 1 (mod 8); Hensel-lift from root 1") `sqrt` must succeed with
`r*r = x`; the code instead reaches the Hensel step with
`f = (1 - 9) tmod 16 = -8 ≠ 0` and calls `mod_inverse(2·root, 2)`, which
always fails because `2·root` is even.  The model returns `none`. -/
theorem c7_sqrt_two_fails : Zp.sqrt ⟨2, 4, 9⟩ = none := by decide

/-- C8 counterexample: the claim quantifies over all `b ≠ 0`, but
`from_rational` strips the factors of `p` from the denominator, so for
`a = 1, b = 5, p = 5, N = 2` it returns `1 mod 25` and multiplying back by
`b` gives `5 mod 25 ≠ 1 mod 25`. -/
theorem c8_counterexample :
    ((Zp.from_rational 1 5 5 2).map (fun z => z.mul (Zp.mk' 5 2 5))) ≠
      some (Zp.mk' 5 2 1) := by decide

/-- C8 (amended): for `p` prime and a denominator `b` not divisible by `p`
(the spec's precondition "result still has p ∤ b"), `from_rational(a,b,p,N)`
succeeds and multiplying back by `b` recovers `a mod p^N`. -/
theorem c8_from_rational_roundtrip (a b : ℤ) (p N : ℕ) (hp : p.Prime)
    (hb : ¬ (p : ℤ) ∣ b) :
    ∃ z : Zp, Zp.from_rational a b p N = some z ∧
      (z.mul (Zp.mk' p N b)).value = (Zp.mk' p N a).value := by
  have hb0 : b ≠ 0 := by rintro rfl; exact hb (dvd_zero _)
  have hstrip : stripFactorZ p b.natAbs b = b := stripFactorZ_eq _ _ _ hb
  have hbn : ¬ p ∣ b.natAbs := by
    intro hcon
    apply hb
    have : ((p : ℕ) : ℤ).natAbs ∣ b.natAbs := by simpa using hcon
    exact Int.natAbs_dvd_natAbs.mp this
  have hcop : Nat.Coprime b.natAbs p :=
    Nat.Coprime.symm ((Nat.Prime.coprime_iff_not_dvd hp).mpr hbn)
  have hcopN : Nat.Coprime b.natAbs (p ^ N) := Nat.Coprime.pow_right _ hcop
  have hgcd : Int.gcd b ((p : ℤ) ^ N) = 1 := by
    unfold Int.gcd
    rwa [Int.natAbs_pow, Int.natAbs_ofNat]
  have hpowpos : (0 : ℤ) < (p : ℤ) ^ N := by
    have : (0 : ℤ) < (p : ℤ) := by exact_mod_cast hp.pos
    positivity
  have hmi : mod_inverse b ((p : ℤ) ^ N) = some (invMod b ((p : ℤ) ^ N)) := by
    unfold mod_inverse
    rw [gcdN_eq_gcd]
    rw [if_pos]
    have : Int.gcd b ((p : ℤ) ^ N) = Nat.gcd b.natAbs ((p : ℤ) ^ N).natAbs := rfl
    rw [← this, hgcd]
  refine ⟨Zp.mk' p N (a * invMod b ((p : ℤ) ^ N)), ?_, ?_⟩
  · unfold Zp.from_rational
    rw [if_neg hb0]
    simp only [hstrip, hmi]
  · have hinv : (b * invMod b ((p : ℤ) ^ N)) % ((p : ℤ) ^ N) =
        1 % ((p : ℤ) ^ N) := invMod_spec b _ hpowpos hgcd
    show (((a * invMod b ((p : ℤ) ^ N)) % ((p : ℤ) ^ N)) *
        ((b % ((p : ℤ) ^ N)))) % ((p : ℤ) ^ (min N N)) = a % ((p : ℤ) ^ N)
    rw [min_self]
    conv_lhs => rw [Int.mul_emod, Int.emod_emod_of_dvd _ dvd_rfl,
      Int.emod_emod_of_dvd _ dvd_rfl, ← Int.mul_emod]
    have hassoc : a * invMod b ((p : ℤ) ^ N) * b =
        a * (b * invMod b ((p : ℤ) ^ N)) := by ring
    rw [hassoc, Int.mul_emod, hinv, ← Int.mul_emod, mul_one]

/-- C8 witness: the amended round trip at `a = 3, b = 2, p = 5, N = 3`. -/
theorem c8_witness :
    Nat.Prime 5 ∧ ¬ (5 : ℤ) ∣ 2 ∧
    (∃ z : Zp, Zp.from_rational 3 2 5 3 = some z ∧
      (z.mul (Zp.mk' 5 3 2)).value = (Zp.mk' 5 3 3).value) :=
  ⟨by norm_num, by decide, c8_from_rational_roundtrip 3 2 5 3 (by norm_num) (by decide)⟩

/-- C4: for `Zp` values with the same prime, each of `x+y`, `x-y`, `x*y`
has precision `min(N_x, N_y)` and an integer representative in the
canonical range `[0, p^min(N_x,N_y))`. -/
theorem c4_arith_precision_range (x y : Zp) (_hp : x.prime = y.prime)
    (h2 : 2 ≤ x.prime) :
    ((x.add y).precision = min x.precision y.precision ∧
      0 ≤ (x.add y).value ∧
      (x.add y).value < (x.prime : ℤ) ^ min x.precision y.precision) ∧
    ((x.sub y).precision = min x.precision y.precision ∧
      0 ≤ (x.sub y).value ∧
      (x.sub y).value < (x.prime : ℤ) ^ min x.precision y.precision) ∧
    ((x.mul y).precision = min x.precision y.precision ∧
      0 ≤ (x.mul y).value ∧
      (x.mul y).value < (x.prime : ℤ) ^ min x.precision y.precision) := by
  have hppos : (0 : ℤ) < (x.prime : ℤ) ^ min x.precision y.precision := by
    have hx : (0 : ℤ) < (x.prime : ℤ) := by
      exact_mod_cast Nat.lt_of_lt_of_le Nat.zero_lt_two h2
    positivity
  refine ⟨⟨rfl, ?_, ?_⟩, ⟨rfl, ?_, ?_⟩, ⟨rfl, ?_, ?_⟩⟩
  · exact Int.emod_nonneg _ (ne_of_gt hppos)
  · exact Int.emod_lt_of_pos _ hppos
  · exact Int.emod_nonneg _ (ne_of_gt hppos)
  · exact Int.emod_lt_of_pos _ hppos
  · exact Int.emod_nonneg _ (ne_of_gt hppos)
  · exact Int.emod_lt_of_pos _ hppos

/-- C4 witness: the theorem at `x = 7 mod 5^3`, `y = 4 mod 5^2`. -/
theorem c4_witness :
    (Zp.mk' 5 3 7).prime = (Zp.mk' 5 2 4).prime ∧
    2 ≤ (Zp.mk' 5 3 7).prime ∧
    ((Zp.mk' 5 3 7).add (Zp.mk' 5 2 4)).precision =
      min (Zp.mk' 5 3 7).precision (Zp.mk' 5 2 4).precision ∧
    0 ≤ ((Zp.mk' 5 3 7).add (Zp.mk' 5 2 4)).value :=
  ⟨rfl, by norm_num [Zp.mk'],
    (c4_arith_precision_range (Zp.mk' 5 3 7) (Zp.mk' 5 2 4) rfl
      (by norm_num [Zp.mk'])).1.1,
    ((c4_arith_precision_range (Zp.mk' 5 3 7) (Zp.mk' 5 2 4) rfl
      (by norm_num [Zp.mk'])).1.2).1⟩


/-- C3: the claim says `evaluate_at` returns `Σ e_i x_i mod L`, but the
source computes `Π e_i^{x_i}` reduced modulo a running lcm.  At modulus 5
(generator 2 of order 4), exponents `e = [2]` and `a = 3` (so `x = 3`), the
code returns `2^3 mod 4 = 0` at a unit argument — contradicting the class
documentation ("χ: (Z/nZ)* → C*") — while the spec formula gives
`2·3 mod 4 = 2`. -/
theorem c3_evaluate_at_divergence :
    (DirichletCharacter.make 5 7 [2]).evaluate_at 3 = 0 ∧
    specEvaluateAt (DirichletCharacter.make 5 7 [2]) 3 = 2 := by decide

set_option maxRecDepth 8000 in
set_option maxHeartbeats 2000000 in
/-- C2: the cache key uses `χ(2)` as the character fingerprint.  The
distinct characters mod 7 with exponent tuples `[1]` and `[5]` (attached
prime 7) share modulus 7, conductor 7 and `evaluate_at(2) = 1`, so at
`s = 0`, `N = 1` the evaluation of the second character after the first
retrieves the first one's cached value (`4`) instead of its own fresh
value (the zero element): the returned value depends on which keys were
populated first. -/
theorem c2_cache_order_dependence :
    (kubota_leopoldt0 (DirichletCharacter.make 7 7 [5]) 1
        ((kubota_leopoldt0 (DirichletCharacter.make 7 7 [1]) 1 []).2)).1 ≠
      (kubota_leopoldt0 (DirichletCharacter.make 7 7 [5]) 1 []).1 := by decide

/-- C10 counterexample: when `χ(a) = 0` (here `a = 5`, modulus 5) nothing
is cached, and a later call with a different precision returns a different
(fresh, precision-dependent) zero value rather than "the value cached by
the first call". -/
theorem c10_counterexample :
    ((DirichletCharacter.make 5 7 [2]).evaluate_cyclotomic 5 2
        (((DirichletCharacter.make 5 7 [2]).evaluate_cyclotomic 5 1 []).2)).1 ≠
      ((DirichletCharacter.make 5 7 [2]).evaluate_cyclotomic 5 1 []).1 := by decide

/-- C10 (amended): whenever `evaluate_at(a) ≠ 0`, the first call caches its
result under the key `a` alone, and every later call with the same `a`
returns that cached value verbatim, whatever precision it requests. -/
theorem c10_cache_hit (χ : DirichletCharacter) (a : ℤ) (N1 N2 : ℕ)
    (c0 : List (ℤ × Cyclotomic)) (h : χ.evaluate_at a ≠ 0) :
    (χ.evaluate_cyclotomic a N2 (χ.evaluate_cyclotomic a N1 c0).2).1 =
      (χ.evaluate_cyclotomic a N1 c0).1 := by
  unfold DirichletCharacter.evaluate_cyclotomic
  cases hf : assocFind c0 a with
  | some v => simp [hf]
  | none =>
    simp only [hf, if_neg h]
    simp [assocFind]

/-- C10 witness: the amended cache theorem at `a = 2`, `χ = χ_{e=2} mod 5`,
precisions 1 and 2. -/
theorem c10_witness :
    (DirichletCharacter.make 5 7 [2]).evaluate_at 2 ≠ 0 ∧
    ((DirichletCharacter.make 5 7 [2]).evaluate_cyclotomic 2 2
        ((DirichletCharacter.make 5 7 [2]).evaluate_cyclotomic 2 1 []).2).1 =
      ((DirichletCharacter.make 5 7 [2]).evaluate_cyclotomic 2 1 []).1 :=
  ⟨by decide, c10_cache_hit (DirichletCharacter.make 5 7 [2]) 2 1 2 [] (by decide)⟩

theorem spN_spec (p : ℕ) : ∀ (fuel n : ℕ), 2 ≤ p → 0 < n → n ≤ fuel →
    n = p ^ (spN p fuel n).1 * (spN p fuel n).2 ∧ ¬ p ∣ (spN p fuel n).2 ∧
      0 < (spN p fuel n).2 := by
  intro fuel
  induction fuel with
  | zero => intro n hp hn hf; omega
  | succ fuel ih =>
    intro n hp hn hf
    by_cases hc : 2 ≤ p ∧ 0 < n ∧ n % p = 0
    · have hd : p ∣ n := Nat.dvd_of_mod_eq_zero hc.2.2
      have hnp : 0 < n / p := Nat.div_pos (Nat.le_of_dvd hn hd) (by omega)
      have hlt : n / p < n := Nat.div_lt_self hn (by omega)
      have hf' : n / p ≤ fuel := by omega
      obtain ⟨ih1, ih2, ih3⟩ := ih (n / p) hp hnp hf'
      have he : spN p (fuel + 1) n =
          ((spN p fuel (n / p)).1 + 1, (spN p fuel (n / p)).2) := by
        rw [spN, if_pos hc]
      rw [he]
      refine ⟨?_, ih2, ih3⟩
      have hmul : p * (n / p) = n := Nat.mul_div_cancel' hd
      calc n = p * (n / p) := hmul.symm
        _ = p * (p ^ (spN p fuel (n / p)).1 * (spN p fuel (n / p)).2) := by rw [← ih1]
        _ = p ^ ((spN p fuel (n / p)).1 + 1) * (spN p fuel (n / p)).2 := by
            rw [pow_succ]; ring
    · have he : spN p (fuel + 1) n = (0, n) := by rw [spN, if_neg hc]
      rw [he]
      refine ⟨by simp, ?_, hn⟩
      intro hdvd
      exact hc ⟨hp, hn, Nat.mod_eq_zero_of_dvd hdvd⟩

theorem stripPow_spec (p n : ℕ) (hp : 2 ≤ p) (hn : 0 < n) :
    n = p ^ (stripPow p n).1 * (stripPow p n).2 ∧ ¬ p ∣ (stripPow p n).2 ∧
      0 < (stripPow p n).2 :=
  spN_spec p n n hp hn le_rfl

/-- At loop exit (`d*d > n`) a left-over greater than 1 is prime. -/
theorem otExit (d n : ℕ) (_h3 : 3 ≤ d) (hn : 0 < n) (hdd : ¬ d * d ≤ n)
    (H : ∀ q : ℕ, q.Prime → q ∣ n → d ≤ q) : n = 1 ∨ n.Prime := by
  by_cases h1 : n = 1
  · exact Or.inl h1
  · right
    by_contra hcon
    have hpf := Nat.minFac_prime h1
    have hdvd := Nat.minFac_dvd n
    have hge := H n.minFac hpf hdvd
    have hsq := Nat.minFac_sq_le_self hn hcon
    have hmul : d * d ≤ n.minFac * n.minFac := Nat.mul_le_mul hge hge
    rw [Nat.pow_two] at hsq
    exact hdd (le_trans hmul hsq)

/-- Full invariant of the odd trial-division loop `otAux`: the collected
pairs times the left-over reproduce `n`, every collected base is prime with
positive exponent and at least `d`, the left-over is 1 or prime, every prime
factor of the left-over exceeds every collected base, and the bases are
strictly increasing. -/
theorem otAux_spec : ∀ (fuel d n : ℕ), 3 ≤ d → d % 2 = 1 → 0 < n →
    n < d + 2 * fuel →
    (∀ q : ℕ, q.Prime → q ∣ n → d ≤ q) →
    ((((otAux fuel d n).1.map (fun pk => pk.1 ^ pk.2)).prod *
        (otAux fuel d n).2 = n) ∧
    (∀ pk ∈ (otAux fuel d n).1, pk.1.Prime ∧ 0 < pk.2 ∧ d ≤ pk.1) ∧
    (0 < (otAux fuel d n).2 ∧
      ((otAux fuel d n).2 = 1 ∨ (otAux fuel d n).2.Prime)) ∧
    (∀ q : ℕ, q.Prime → q ∣ (otAux fuel d n).2 →
      d ≤ q ∧ ∀ pk ∈ (otAux fuel d n).1, pk.1 < q) ∧
    ((otAux fuel d n).1.map Prod.fst).Pairwise (· < ·)) := by
  intro fuel
  induction fuel with
  | zero =>
    intro d n h3 hodd hn hfuel H
    have he : otAux 0 d n = ([], n) := rfl
    rw [he]
    have hdd : ¬ d * d ≤ n := by
      have hd2 : d ≤ d * d := Nat.le_mul_of_pos_left d (by omega)
      omega
    exact ⟨by simp, by simp, ⟨hn, otExit d n h3 hn hdd H⟩,
      fun q hq hqd => ⟨H q hq hqd, by simp⟩, by simp⟩
  | succ fuel ih =>
    intro d n h3 hodd hn hfuel H
    by_cases hdd : d * d ≤ n
    · obtain ⟨hfact, hnd, hm0⟩ := stripPow_spec d n (by omega) hn
      have he : otAux (fuel + 1) d n =
          ((if 0 < (stripPow d n).1 then
              (d, (stripPow d n).1) :: (otAux fuel (d + 2) (stripPow d n).2).1
            else (otAux fuel (d + 2) (stripPow d n).2).1),
           (otAux fuel (d + 2) (stripPow d n).2).2) := by
        rw [otAux, if_pos hdd]
      have hmle : (stripPow d n).2 ≤ n := by
        have h1 : 0 < d ^ (stripPow d n).1 := pow_pos (by omega) _
        have h2 := Nat.le_mul_of_pos_left (stripPow d n).2 h1
        exact h2.trans_eq hfact.symm
      have H' : ∀ q : ℕ, q.Prime → q ∣ (stripPow d n).2 → d + 2 ≤ q := by
        intro q hq hqd
        have hqn : q ∣ n := by
          rw [hfact]; exact Dvd.dvd.mul_left hqd _
        have h1 := H q hq hqn
        have hq2 : q ≠ d := by rintro rfl; exact hnd hqd
        have hqodd : q ≠ d + 1 := by
          rintro rfl
          have heven : Even (d + 1) := Nat.even_iff.mpr (by omega)
          have := (Nat.Prime.even_iff hq).mp heven
          omega
        omega
      obtain ⟨ra, rb, rc, rd, re⟩ :=
        ih (d + 2) (stripPow d n).2 (by omega) (by omega) hm0 (by omega) H'
      by_cases hc0 : 0 < (stripPow d n).1
      · have hddvd : d ∣ n := by
          rw [hfact]
          exact Dvd.dvd.mul_right (dvd_pow_self d (by omega)) _
        have hdprime : d.Prime := by
          have hmf1 := Nat.minFac_prime (show d ≠ 1 by omega)
          have hmf2 : d.minFac ∣ n := (Nat.minFac_dvd d).trans hddvd
          have hmf3 := H d.minFac hmf1 hmf2
          have hmf4 := Nat.minFac_le (show 0 < d by omega)
          have heq : d.minFac = d := le_antisymm hmf4 hmf3
          rw [← heq]; exact hmf1
        have h1 : (otAux (fuel + 1) d n).1 =
            (d, (stripPow d n).1) :: (otAux fuel (d + 2) (stripPow d n).2).1 := by
          rw [he, if_pos hc0]
        have h2 : (otAux (fuel + 1) d n).2 =
            (otAux fuel (d + 2) (stripPow d n).2).2 := by
          rw [he]
        refine ⟨?_, ?_, ?_, ?_, ?_⟩
        · rw [h1, h2, List.map_cons, List.prod_cons, mul_assoc, ra]
          exact hfact.symm
        · rw [h1]
          intro pk hpk
          rcases List.mem_cons.mp hpk with h | h
          · subst h; exact ⟨hdprime, hc0, le_rfl⟩
          · obtain ⟨hb1, hb2, hb3⟩ := rb pk h
            exact ⟨hb1, hb2, by omega⟩
        · rw [h2]; exact rc
        · rw [h1, h2]
          intro q hq hqd
          obtain ⟨hq1, hq2⟩ := rd q hq hqd
          refine ⟨by omega, ?_⟩
          intro pk hpk
          rcases List.mem_cons.mp hpk with h | h
          · subst h
            show d < q
            omega
          · exact hq2 pk h
        · rw [h1, List.map_cons]
          refine List.Pairwise.cons ?_ re
          intro b hb
          obtain ⟨pk, hpk, hpkeq⟩ := List.mem_map.mp hb
          obtain ⟨_, _, hb3⟩ := rb pk hpk
          show d < b
          omega
      · have hc00 : (stripPow d n).1 = 0 := by omega
        have hmn : (stripPow d n).2 = n := by
          rw [hc00, pow_zero, one_mul] at hfact
          exact hfact.symm
        have h1 : (otAux (fuel + 1) d n).1 =
            (otAux fuel (d + 2) (stripPow d n).2).1 := by
          rw [he, if_neg hc0]
        have h2 : (otAux (fuel + 1) d n).2 =
            (otAux fuel (d + 2) (stripPow d n).2).2 := by
          rw [he]
        refine ⟨?_, ?_, ?_, ?_, ?_⟩
        · rw [h1, h2, ra, hmn]
        · rw [h1]
          intro pk hpk
          obtain ⟨hb1, hb2, hb3⟩ := rb pk hpk
          exact ⟨hb1, hb2, by omega⟩
        · rw [h2]; exact rc
        · rw [h1, h2]
          intro q hq hqd
          obtain ⟨hq1, hq2⟩ := rd q hq hqd
          exact ⟨by omega, hq2⟩
        · rw [h1]; exact re
    · have he : otAux (fuel + 1) d n = ([], n) := by rw [otAux, if_neg hdd]
      rw [he]
      exact ⟨by simp, by simp, ⟨hn, otExit d n h3 hn hdd H⟩,
        fun q hq hqd => ⟨H q hq hqd, by simp⟩, by simp⟩

/-- `codeFactor` is a genuine prime factorization: the pairs multiply back to
`n`, every base is prime with positive exponent, and the bases are pairwise
distinct. -/
theorem codeFactor_spec (n : ℕ) (hn : 0 < n) :
    ((codeFactor n).map (fun pk => pk.1 ^ pk.2)).prod = n ∧
    (∀ pk ∈ codeFactor n, pk.1.Prime ∧ 0 < pk.2) ∧
    ((codeFactor n).map Prod.fst).Pairwise (· ≠ ·) := by
  obtain ⟨hfact2, hnd2, hm2⟩ := stripPow_spec 2 n (by norm_num) hn
  have H1 : ∀ q : ℕ, q.Prime → q ∣ (stripPow 2 n).2 → 3 ≤ q := by
    intro q hq hqd
    have h2 := hq.two_le
    have hq2 : q ≠ 2 := by rintro rfl; exact hnd2 hqd
    omega
  obtain ⟨ra, rb, rc, rd, re⟩ :=
    otAux_spec (stripPow 2 n).2 3 (stripPow 2 n).2 le_rfl (by norm_num) hm2
      (by omega) H1
  have he : codeFactor n =
      (if 0 < (stripPow 2 n).1 then [(2, (stripPow 2 n).1)] else []) ++
        (otAux (stripPow 2 n).2 3 (stripPow 2 n).2).1 ++
        (if 1 < (otAux (stripPow 2 n).2 3 (stripPow 2 n).2).2 then
          [((otAux (stripPow 2 n).2 3 (stripPow 2 n).2).2, 1)] else []) := rfl
  set c2 := (stripPow 2 n).1 with hc2
  set n1 := (stripPow 2 n).2 with hn1
  set l := (otAux n1 3 n1).1 with hldef
  set r := (otAux n1 3 n1).2 with hrdef
  rw [he]
  refine ⟨?_, ?_, ?_⟩
  · rw [List.map_append, List.map_append, List.prod_append, List.prod_append]
    have hP2 : ((if 0 < c2 then [(2, c2)] else []).map
        (fun pk => pk.1 ^ pk.2)).prod = 2 ^ c2 := by
      by_cases h : 0 < c2
      · rw [if_pos h]; simp
      · rw [if_neg h]
        have h0 : c2 = 0 := by omega
        simp [h0]
    have hPr : ((if 1 < r then [(r, 1)] else []).map
        (fun pk => pk.1 ^ pk.2)).prod = r := by
      by_cases h : 1 < r
      · rw [if_pos h]; simp
      · rw [if_neg h]
        have h0 := rc.1
        have h1 : r = 1 := by omega
        simp [h1]
    rw [hP2, hPr, mul_assoc, ra]
    exact hfact2.symm
  · intro pk hpk
    rcases List.mem_append.mp hpk with h | h
    · rcases List.mem_append.mp h with h | h
      · by_cases hc : 0 < c2
        · rw [if_pos hc] at h
          have hpe : pk = (2, c2) := List.mem_singleton.mp h
          subst hpe
          exact ⟨Nat.prime_two, hc⟩
        · rw [if_neg hc] at h
          simp at h
      · exact ⟨(rb pk h).1, (rb pk h).2.1⟩
    · by_cases hc : 1 < r
      · rw [if_pos hc] at h
        have hpe : pk = (r, 1) := List.mem_singleton.mp h
        subst hpe
        rcases rc.2 with h1 | h1
        · exact absurd h1 (by omega)
        · exact ⟨h1, by norm_num⟩
      · rw [if_neg hc] at h
        simp at h
  · rw [List.map_append, List.map_append]
    refine List.pairwise_append.mpr
      ⟨List.pairwise_append.mpr ⟨?_, ?_, ?_⟩, ?_, ?_⟩
    · by_cases h : 0 < c2 <;> simp [h]
    · exact re.imp (fun h => Nat.ne_of_lt h)
    · intro a ha b hb
      by_cases h : 0 < c2
      · rw [if_pos h] at ha
        simp at ha
        subst ha
        obtain ⟨pk, hpk, rfl⟩ := List.mem_map.mp hb
        have h3 := (rb pk hpk).2.2
        omega
      · rw [if_neg h] at ha
        simp at ha
    · by_cases h : 1 < r <;> simp [h]
    · intro a ha b hb
      by_cases h : 1 < r
      · rw [if_pos h] at hb
        simp at hb
        subst hb
        have hrp : r.Prime := by
          rcases rc.2 with h1 | h1
          · exact absurd h1 (by omega)
          · exact h1
        obtain ⟨hr3, hrlt⟩ := rd r hrp dvd_rfl
        rcases List.mem_append.mp ha with h2 | h2
        · by_cases hcc : 0 < c2
          · rw [if_pos hcc] at h2
            simp at h2
            omega
          · rw [if_neg hcc] at h2
            simp at h2
        · obtain ⟨pk, hpk, rfl⟩ := List.mem_map.mp h2
          exact Nat.ne_of_lt (hrlt pk hpk)
      · rw [if_neg h] at hb
        simp at hb

/-- Totient is multiplicative over a list of distinct prime powers. -/
theorem totient_prod_pairs : ∀ (L : List (ℕ × ℕ)),
    (∀ pk ∈ L, pk.1.Prime ∧ 0 < pk.2) →
    (L.map Prod.fst).Pairwise (· ≠ ·) →
    Nat.totient ((L.map (fun pk => pk.1 ^ pk.2)).prod) =
      (L.map (fun pk => Nat.totient (pk.1 ^ pk.2))).prod := by
  intro L
  induction L with
  | nil => intro _ _; simp
  | cons pk L ih =>
    intro hP hD
    rw [List.map_cons] at hD
    obtain ⟨hD1, hD2⟩ := List.pairwise_cons.mp hD
    rw [List.map_cons, List.prod_cons, List.map_cons, List.prod_cons]
    have hco : Nat.Coprime (pk.1 ^ pk.2)
        ((L.map (fun qk => qk.1 ^ qk.2)).prod) := by
      refine Nat.coprime_list_prod_right_iff.mpr ?_
      intro x hx
      obtain ⟨qk, hqk, rfl⟩ := List.mem_map.mp hx
      have h1 := (hP pk (List.mem_cons_self _ _)).1
      have h2 := (hP qk (List.mem_cons_of_mem _ hqk)).1
      have hne : pk.1 ≠ qk.1 := hD1 qk.1 (List.mem_map_of_mem _ hqk)
      exact Nat.Coprime.pow _ _ ((Nat.coprime_primes h1 h2).mpr hne)
    rw [Nat.totient_mul hco,
      ih (fun qk hqk => hP qk (List.mem_cons_of_mem _ hqk)) hD2]

/-- The generator orders contributed by one prime-power factor multiply to
the totient of that prime power. -/
theorem factorPairs_orders_prod (pk : ℕ × ℕ) (hp : pk.1.Prime)
    (hk : 0 < pk.2) :
    ((factorPairs pk).map Prod.snd).prod = Nat.totient (pk.1 ^ pk.2) := by
  obtain ⟨p, k⟩ := pk
  simp only at hp hk
  by_cases h2 : p = 2
  · subst h2
    by_cases h3 : 3 ≤ k
    · have he : factorPairs (2, k) = [(-1, 2), (3, 2 ^ k / 4)] := by
        simp only [factorPairs]
        rw [if_pos ⟨trivial, h3⟩]
      rw [he]
      simp only [List.map_cons, List.map_nil, List.prod_cons, List.prod_nil]
      rw [Nat.totient_prime_pow Nat.prime_two hk]
      have h4 : (4 : ℕ) = 2 ^ 2 := by norm_num
      rw [h4, Nat.pow_div (by omega) (by norm_num)]
      have h5 : k - 1 = (k - 2) + 1 := by omega
      rw [h5, pow_succ]
      ring
    · by_cases hk2 : k = 2
      · subst hk2; decide
      · have hk1 : k = 1 := by omega
        subst hk1; decide
  · have he : ((factorPairs (p, k)).map Prod.snd).prod = p ^ k - p ^ k / p := by
      simp only [factorPairs]
      rw [if_neg (fun hh => h2 hh.1), if_neg (fun hh => h2 hh.1),
        if_neg (fun hh => h2 hh.1)]
      simp
    rw [he, Nat.totient_prime_pow hp hk]
    have hd : p ^ k / p = p ^ (k - 1) := by
      conv_lhs => rw [show k = (k - 1) + 1 by omega]
      rw [pow_succ, Nat.mul_div_cancel _ hp.pos]
    rw [hd]
    have hksplit : p ^ k = p ^ (k - 1) * p := by
      conv_lhs => rw [show k = (k - 1) + 1 by omega]
      rw [pow_succ]
    rw [hksplit, Nat.mul_sub, mul_one]

/-- The orders of all generator pairs produced from a factor list multiply
to the product of the prime-power totients. -/
theorem flatMap_orders_prod : ∀ (L : List (ℕ × ℕ)),
    (∀ pk ∈ L, pk.1.Prime ∧ 0 < pk.2) →
    ((L.flatMap factorPairs).map Prod.snd).prod =
      (L.map (fun pk => Nat.totient (pk.1 ^ pk.2))).prod := by
  intro L
  induction L with
  | nil => intro _; simp
  | cons pk L ih =>
    intro hP
    rw [List.flatMap_cons, List.map_append, List.prod_append,
      List.map_cons, List.prod_cons]
    have h1 := hP pk (List.mem_cons_self _ _)
    rw [factorPairs_orders_prod pk h1.1 h1.2,
      ih (fun qk hqk => hP qk (List.mem_cons_of_mem _ hqk))]

/-- The generator orders of `compute_generators(n)` multiply to φ(n). -/
theorem computeGenPairs_orders (n : ℕ) (hn : 1 ≤ n) :
    ((computeGenPairs n).map Prod.snd).prod = Nat.totient n := by
  by_cases h1 : n = 1
  · subst h1; decide
  · rw [computeGenPairs, if_neg h1]
    obtain ⟨hprod, hprime, hdist⟩ := codeFactor_spec n (by omega)
    rw [flatMap_orders_prod (codeFactor n) hprime,
      ← totient_prod_pairs (codeFactor n) hprime hdist, hprod]

/-- `allTuples` over a list of bounds has exactly the product of the bounds
many tuples. -/
theorem allTuples_length : ∀ (l : List ℕ), (allTuples l).length = l.prod := by
  intro l
  induction l with
  | nil => rfl
  | cons m ms ih =>
    rw [allTuples, List.length_flatMap, List.prod_cons]
    have hmap : List.map (List.length ∘ fun val =>
        (allTuples ms).map (fun t => val :: t)) (List.range m) =
        List.map (fun _ => (allTuples ms).length) (List.range m) := by
      refine List.map_congr_left ?_
      intro a _
      simp
    rw [hmap, ih]
    simp [List.map_const', List.sum_replicate, smul_eq_mul, mul_comm]

/-- C9: `enumerate_characters(n, p)` returns exactly φ(n) characters: one
for each exponent tuple in the cartesian product of the generator orders,
whose product equals the group order φ(n). -/
theorem c9_enumerate_count (n p : ℕ) (hn : 1 ≤ n) :
    (enumerate_characters n p).length = Nat.totient n := by
  have horders := computeGenPairs_orders n hn
  have he : enumerate_characters n p =
      (if (computeGenPairs n).length = 0 then [DirichletCharacter.mkTrivial n p]
       else (allTuples ((computeGenPairs n).map Prod.snd)).map
         (fun vs => DirichletCharacter.make n p vs)) := rfl
  rw [he]
  by_cases h0 : (computeGenPairs n).length = 0
  · rw [if_pos h0]
    have hnil : computeGenPairs n = [] := List.length_eq_zero.mp h0
    rw [hnil] at horders
    simp at horders
    simp [horders]
  · rw [if_neg h0, List.length_map, allTuples_length]
    exact horders

theorem c9_witness :
    1 ≤ 12 ∧ (enumerate_characters 12 3).length = Nat.totient 12 :=
  ⟨by norm_num, c9_enumerate_count 12 3 (by norm_num)⟩

end Libadic
